import Mathlib

/-!
# Magnolia Storage — Competitor Price Scraper: verification development

A shallow embedding of `src/scraper.py`.  Python dictionaries are modelled
as association lists in insertion order (Python dict keys are unique and
iteration follows insertion order); `dict.get`, `dict[k] = v` and `k in d`
become `dictGet`, `dictSet` and `hasKey`.  Prices captured by the regular
expressions are dollar amounts with at most two decimals and no sign, so a
raw price is modelled exactly as a natural number of cents; `int(round(x))`
on such a value is Python 3 banker's rounding, reproduced exactly by
`roundPrice` (the involved floats, an integer number of cents divided by
100, round the same way as the rationals they approximate: the only ties
are at exactly 50 cents, which is representable).
-/

namespace Magnolia

/-- First-match lookup in an association list: Python `d.get(k)` /
`d[k]` (our dictionaries never hold duplicate keys). -/
def dictGet {κ α : Type} [DecidableEq κ] : List (κ × α) → κ → Option α
  | [], _ => none
  | p :: d, k => if p.1 = k then some p.2 else dictGet d k

/-- Python `d[k] = v`: replace the value of an existing key in place,
otherwise append the new pair at the end (insertion order). -/
def dictSet {κ α : Type} [DecidableEq κ] : List (κ × α) → κ → α → List (κ × α)
  | [], k, v => [(k, v)]
  | p :: d, k, v => if p.1 = k then (k, v) :: d else p :: dictSet d k v

/-- Python `k in d`. -/
def hasKey {κ α : Type} [DecidableEq κ] : List (κ × α) → κ → Bool
  | [], _ => false
  | p :: d, k => p.1 = k || hasKey d k

variable {κ α : Type} [DecidableEq κ]

theorem dictGet_dictSet_self (d : List (κ × α)) (k : κ) (v : α) :
    dictGet (dictSet d k v) k = some v := by
  induction d with
  | nil => simp [dictGet, dictSet]
  | cons p d ih =>
    by_cases h : p.1 = k <;> simp [dictGet, dictSet, h, ih]

theorem dictGet_dictSet_ne (d : List (κ × α)) (k k' : κ) (v : α) (h : k' ≠ k) :
    dictGet (dictSet d k v) k' = dictGet d k' := by
  have h2 : ¬(k = k') := fun he => h he.symm
  induction d with
  | nil => simp [dictGet, dictSet, h2]
  | cons p d ih =>
    by_cases hp : p.1 = k
    · simp [dictGet, dictSet, hp, h2]
    · simp [dictGet, dictSet, hp, ih]

theorem hasKey_eq_contains (d : List (κ × α)) (k : κ) :
    hasKey d k = (d.map Prod.fst).contains k := by
  induction d with
  | nil => simp [hasKey]
  | cons p d ih =>
    simp only [hasKey, ih, List.map_cons, List.contains_cons]
    by_cases h : p.1 = k
    · simp [h]
    · have h2 : ¬(k = p.1) := fun he => h he.symm
      simp [h, h2]

theorem mapFst_dictSet_of_hasKey (d : List (κ × α)) (k : κ) (v : α)
    (h : hasKey d k = true) :
    (dictSet d k v).map Prod.fst = d.map Prod.fst := by
  induction d with
  | nil => simp [hasKey] at h
  | cons p d ih =>
    by_cases hp : p.1 = k
    · simp [dictSet, hp]
    · simp [hasKey, hp] at h
      simp [dictSet, hp, ih h]

theorem mapFst_dictSet_of_not_hasKey (d : List (κ × α)) (k : κ) (v : α)
    (h : hasKey d k = false) :
    (dictSet d k v).map Prod.fst = d.map Prod.fst ++ [k] := by
  induction d with
  | nil => simp [dictSet]
  | cons p d ih =>
    by_cases hp : p.1 = k
    · simp [hasKey, hp] at h
    · simp [hasKey, hp] at h
      simp [dictSet, hp, ih h]

theorem mem_dictSet (d : List (κ × α)) (k : κ) (v : α) (p : κ × α)
    (h : p ∈ dictSet d k v) : p ∈ d ∨ p = (k, v) := by
  induction d with
  | nil => simp [dictSet] at h; simp [h]
  | cons q d ih =>
    by_cases hq : q.1 = k
    · simp [dictSet, hq] at h
      rcases h with h | h
      · right; simp [h]
      · left; simp [h]
    · simp [dictSet, hq] at h
      rcases h with h | h
      · left; simp [h]
      · rcases ih h with h' | h'
        · left; simp [h']
        · right; exact h'

theorem dictGet_mem (d : List (κ × α)) (k : κ) (v : α)
    (h : dictGet d k = some v) : (k, v) ∈ d := by
  induction d with
  | nil => simp [dictGet] at h
  | cons p d ih =>
    by_cases hp : p.1 = k
    · simp [dictGet, hp] at h
      have hpv : p = (k, v) := by
        cases p
        simp_all
      simp [hpv]
    · simp [dictGet, hp] at h
      simp [ih h]

/-- Python `int(round(x))` where `x` is `cents / 100` dollars: Python 3
round-half-to-even on the exact rational value. -/
def roundPrice (cents : Nat) : Int :=
  let q := cents / 100
  let r := cents % 100
  if r < 50 then (q : Int)
  else if 50 < r then (q : Int) + 1
  else if q % 2 = 0 then (q : Int) else (q : Int) + 1

/-- The five canonical unit-size keys, in the insertion order every scraper
uses for its initial `pricing` dict. -/
def canonicalSizes : List String := ["5x10", "10x10", "10x15", "10x20", "10x30"]

/-- A PricingTable: the Python dict mapping size keys to a price or `None`. -/
abbrev Pricing := List (String × Option Int)

/-- The initial `pricing` dict, identical in every scraper
(src/scraper.py lines 60, 127, 169, 195, 225). -/
def emptyPricing : Pricing :=
  [("5x10", none), ("10x10", none), ("10x15", none), ("10x20", none), ("10x30", none)]

/-- One regex match: `(width, depth, price in cents)`.  The price groups
`\$(\d+(?:\.\d\x7b2\x7d)?)` and `data-pricebook-price="([\d.]+)"` capture an
unsigned decimal amount, represented exactly by its value in cents. -/
abbrev Block := Nat × Nat × Nat

/-- Python `f"{w}x{d}"` key built from a dimension match. -/
def keyOf (w d : Nat) : String := toString w ++ "x" ++ toString d

/-- The `size_map` dict of `scrape_public_storage` (src/scraper.py lines 92-99),
kept as the literal dict of the source. -/
def size_map_table : List ((Nat × Nat) × String) :=
  [((5,5),"5x10"), ((5,6),"5x10"), ((5,8),"5x10"), ((5,10),"5x10"),
   ((5,14),"5x10"), ((5,15),"5x10"),
   ((7,14),"10x10"), ((10,10),"10x10"), ((10,14),"10x10"),
   ((10,15),"10x15"), ((10,17),"10x15"),
   ((10,19),"10x20"), ((10,20),"10x20"),
   ((10,30),"10x30"), ((10,40),"10x30"), ((12,28),"10x30")]

/-- Python `size_map.get((w, d))`. -/
def size_map_get (w d : Nat) : Option String := dictGet size_map_table (w, d)

/-- The `lockaway_map` dict (src/scraper.py line 146): note the `"8x4": None` entry;
`lockaway_map.get(key)` returns `None` both for it and for missing keys,
and the `if mapped` guard then skips the observation. -/
def lockaway_map_table : List (String × Option String) :=
  [("8x4", none), ("8x8", some "5x10"), ("8x12", some "10x10")]

/-- Normalization used by Public Storage unit blocks: `size_map.get((w, d))`. -/
def psNorm (b : Block) : Option String := size_map_get b.1 b.2.1

/-- Normalization by direct key match: `key = f"{w}x{d}"` accepted only
`if key in pricing` (the five canonical keys). -/
def directNorm (b : Block) : Option String :=
  let key := keyOf b.1 b.2.1
  if hasKey emptyPricing key then some key else none

/-- Lockaway second pass normalization: `lockaway_map.get(key)` with the
falsy-`None` guard. -/
def lockawayNorm (b : Block) : Option String :=
  (dictGet lockaway_map_table (keyOf b.1 b.2.1)).join

/-- Woodlands normalization: remap `12x10` and `12x30`, then require
`mapped in pricing` (src/scraper.py lines 238-244). -/
def woodlandsNorm (b : Block) : Option String :=
  let key := keyOf b.1 b.2.1
  let mapped := if key = "12x10" then "10x10" else if key = "12x30" then "10x30" else key
  if hasKey emptyPricing mapped then some mapped else none

/-- One iteration of the `size_prices` loop: keep the cheapest price seen
for each normalized size (`if mapped not in size_prices or price <
size_prices[mapped]`). -/
def minStep (norm : Block → Option String) (sp : List (String × Nat)) (b : Block) :
    List (String × Nat) :=
  match norm b with
  | none => sp
  | some s =>
    match dictGet sp s with
    | none => dictSet sp s b.2.2
    | some old => if b.2.2 < old then dictSet sp s b.2.2 else sp

/-- The `size_prices` accumulation over all matched blocks. -/
def buildSizePrices (norm : Block → Option String) (init : List (String × Nat))
    (blocks : List Block) : List (String × Nat) :=
  blocks.foldl (minStep norm) init

/-- The loop `for size, price in size_prices.items(): pricing[size] = int(round(price))`. -/
def applyRounded (pr : Pricing) (sp : List (String × Nat)) : Pricing :=
  sp.foldl (fun pr kv => dictSet pr kv.1 (some (roundPrice kv.2))) pr

/-- Same loop with Lockaway's extra `if size in pricing` guard
(src/scraper.py lines 153-155). -/
def applyRoundedGuarded (pr : Pricing) (sp : List (String × Nat)) : Pricing :=
  sp.foldl (fun pr kv =>
    if hasKey pr kv.1 then dictSet pr kv.1 (some (roundPrice kv.2)) else pr) pr

/-- Body of `scrape_public_storage` from the chosen `unit_blocks` on
(src/scraper.py lines 101-112). -/
def psCore (unitBlocks : List Block) : Pricing :=
  applyRounded emptyPricing (buildSizePrices psNorm [] unitBlocks)

/-- Body of `scrape_lockaway` (src/scraper.py lines 136-155): a first
min-pass over direct canonical keys, a second min-pass over the same
blocks through `lockaway_map`, then guarded rounding. -/
def lockawayCore (blocks : List Block) : Pricing :=
  applyRoundedGuarded emptyPricing
    (buildSizePrices lockawayNorm (buildSizePrices directNorm [] blocks) blocks)

/-- One iteration of the Honea Egypt loop (src/scraper.py lines 178-181):
`if key in pricing: pricing[key] = int(round(float(price)))` — each
observation with a canonical key OVERWRITES the entry, no minimum. -/
def honeaStep (pr : Pricing) (b : Block) : Pricing :=
  let key := keyOf b.1 b.2.1
  if hasKey pr key then dictSet pr key (some (roundPrice b.2.2)) else pr

/-- Body of `scrape_honea_egypt` (src/scraper.py lines 178-181). -/
def honeaCore (blocks : List Block) : Pricing :=
  blocks.foldl honeaStep emptyPricing

/-- Body of `scrape_montgomery` (src/scraper.py lines 203-211). -/
def montgomeryCore (blocks : List Block) : Pricing :=
  applyRounded emptyPricing (buildSizePrices directNorm [] blocks)

/-- Body of `scrape_woodlands_sao` (src/scraper.py lines 233-248). -/
def woodlandsCore (blocks : List Block) : Pricing :=
  applyRounded emptyPricing (buildSizePrices woodlandsNorm [] blocks)

/-!
Scraper entry points.  `html : Option String` is the Fetcher result:
`none` models `fetch` returning `None` on failure, `some h` a fetched page
`h`.  Every scraper starts with `if not html: return None`, which in
Python is taken both for `None` and for the empty string.  The lists of
regex matches on `h` are passed explicitly (`re.findall` is a stdlib
collaborator; on `h = ""` all of them are necessarily empty, but the guard
returns first).
-/

/-- Function `scrape_public_storage` (src/scraper.py lines 50-115).  `blocks1` is the
primary dimension-before-price pattern's matches; `blocks2` the alternate
price-before-dimensions pattern's matches as `(price, w, d)` triples,
reordered by the source into `(w, d, price)`; `pricesRaw` the broader
bare `data-pricebook-price` capture.  When both paired patterns fail and
`prices_raw` is empty the dict of five `None`s is returned early; when
`prices_raw` is non-empty the code falls through with zero paired blocks
and produces the same all-`None` dict. -/
def scrape_public_storage (html : Option String) (blocks1 : List Block)
    (blocks2 : List Block) (pricesRaw : List Nat) : Option Pricing :=
  match html with
  | none => none
  | some h =>
    if h = "" then none
    else
      let ub := if blocks1 = [] then blocks2.map (fun b => (b.2.1, b.2.2, b.1)) else blocks1
      if ub = [] && pricesRaw = [] then some emptyPricing
      else some (psCore ub)

/-- Function `scrape_lockaway` (src/scraper.py lines 118-158). -/
def scrape_lockaway (html : Option String) (blocks : List Block) : Option Pricing :=
  match html with
  | none => none
  | some h => if h = "" then none else some (lockawayCore blocks)

/-- Function `scrape_honea_egypt` (src/scraper.py lines 161-184). -/
def scrape_honea_egypt (html : Option String) (blocks : List Block) : Option Pricing :=
  match html with
  | none => none
  | some h => if h = "" then none else some (honeaCore blocks)

/-- Function `scrape_montgomery` (src/scraper.py lines 187-214). -/
def scrape_montgomery (html : Option String) (blocks : List Block) : Option Pricing :=
  match html with
  | none => none
  | some h => if h = "" then none else some (montgomeryCore blocks)

/-- Function `scrape_woodlands_sao` (src/scraper.py lines 217-251). -/
def scrape_woodlands_sao (html : Option String) (blocks : List Block) : Option Pricing :=
  match html with
  | none => none
  | some h => if h = "" then none else some (woodlandsCore blocks)

/-- The extraction strategies of the repository. -/
inductive Site where
  | publicStorage
  | lockaway
  | honeaEgypt
  | montgomery
  | woodlandsSAO
  deriving DecidableEq

/-- How many relaxed fallback patterns each strategy tries after its
primary co-occurrence pattern yields zero matches: `scrape_public_storage`
tries two more `re.findall` patterns (src/scraper.py lines 75-78 and 84);
every other scraper runs a single `re.findall` (lines 131-134, 173-176,
198-201, 228-231) with no fallback. -/
def fallbackAttempts : Site → Nat
  | .publicStorage => 2
  | .lockaway => 0
  | .honeaEgypt => 0
  | .montgomery => 0
  | .woodlandsSAO => 0

/-- A competitor entry of data.json: `name`, `pricing`, and the remaining
descriptive fields (address, phone, ...) opaque to the merge loop. -/
structure Competitor where
  name : String
  pricing : Pricing
  meta : List (String × String)
  deriving DecidableEq

/-- One detected price change (the data of the formatted line
`f"  {name} {size}: ${old_val} -> ${new_val}"`, src/scraper.py line 344). -/
structure Change where
  cname : String
  size : String
  oldVal : Option Int
  newVal : Option Int
  deriving DecidableEq

/-- One entry of the run's `scrape_targets` list together with the outcome
of its scrape: `(name, none)` models a target with `scraper: None` (no URL
or strategy configured); `(name, some none)` a configured scraper that
returned `None` (fetch failure); `(name, some (some p))` a successful
extraction producing `p`. -/
abbrev RunTarget := String × Option (Option Pricing)

/-- Python `pricing.get(size)`: a missing key and a stored `None` both
read back as `None`. -/
def joinGet (p : Pricing) (s : String) : Option Int := (dictGet p s).join

/-- The `existing` lookup dict built from the loaded competitor list
(src/scraper.py lines 317-319): later duplicates overwrite earlier ones. -/
def buildExisting (cs : List Competitor) : List (String × Competitor) :=
  cs.foldl (fun d c => dictSet d c.name c) []

/-- Python `old_pricing = existing.get(name, dict()).get("pricing", default)`
(src/scraper.py lines 326-327). -/
def oldPricingOf (ex : List (String × Competitor)) (n : String) : Pricing :=
  match dictGet ex n with
  | some c => c.pricing
  | none => emptyPricing

/-- The per-size comparison loop (src/scraper.py lines 340-344). -/
def changesFor (n : String) (oldP newP : Pricing) : List Change :=
  canonicalSizes.filterMap (fun s =>
    if joinGet oldP s ≠ joinGet newP s
    then some ⟨n, s, joinGet oldP s, joinGet newP s⟩ else none)

/-- One iteration of the scrape loop (src/scraper.py lines 324-349):
skipped or failed targets keep `old_pricing` and report nothing; a
successful scrape installs the new pricing and reports the differences. -/
def processTarget (ex : List (String × Competitor)) (t : RunTarget) :
    (String × Pricing) × List Change :=
  let oldP := oldPricingOf ex t.1
  match t.2 with
  | none => ((t.1, oldP), [])
  | some none => ((t.1, oldP), [])
  | some (some np) => ((t.1, np), changesFor t.1 oldP np)

/-- One iteration of the metadata merge loop (src/scraper.py lines
356-363): copy the existing competitor and replace only `pricing`;
competitors absent from the store are stored as the bare
name-plus-pricing dict the scrape loop built. -/
def mergedEntry (ex : List (String × Competitor)) (u : String × Pricing) : Competitor :=
  match dictGet ex u.1 with
  | some c => { c with pricing := u.2 }
  | none => { name := u.1, pricing := u.2, meta := [] }

/-- The whole merge pass of `main` (src/scraper.py lines 317-365): returns
the `competitors` list written back to data.json and the collected
`changes`. -/
def runMerge (prev : List Competitor) (targets : List RunTarget) :
    List Competitor × List Change :=
  let ex := buildExisting prev
  let results := targets.map (processTarget ex)
  ((results.map Prod.fst).map (mergedEntry ex), (results.map Prod.snd).flatten)

/-- The persisted store's content. -/
structure StoreData where
  lastUpdated : Option String
  competitors : List Competitor
  deriving DecidableEq

/-- State of data.json on disk at load time. -/
inductive StoreFile where
  | missing
  | malformed
  | wellFormed (d : StoreData)
  deriving DecidableEq

/-- Loading data.json (src/scraper.py lines 263-270).  The file is read
with `json.load` under no try/except: a file that exists but does not
parse raises `json.JSONDecodeError`, which propagates out of `main` and
terminates the process — modelled as `Except.error`.  A missing file takes
the `else` branch and yields the default structure. -/
def loadStore : StoreFile → Except String StoreData
  | .missing => .ok { lastUpdated := none, competitors := [] }
  | .malformed => .error "json.JSONDecodeError propagates and the run aborts"
  | .wellFormed d => .ok d

/-!
## Specification-side vocabulary

`pricesFor`, `minPrice?` and `lastWins?` restate, directly from the
claim's words, which observations of a pass normalize to a size and what
their minimum (resp. last) price is; the theorems below compare the
scraper embeddings against them.
-/

/-- Minimum of two optional prices, absent values ignored. -/
def omin : Option Nat → Option Nat → Option Nat
  | none, b => b
  | some a, none => some a
  | some a, some b => some (min a b)

/-- The minimum of a price list, `none` when empty. -/
def minPrice? : List Nat → Option Nat
  | [] => none
  | p :: l => omin (some p) (minPrice? l)

/-- The last element of a price list, `none` when empty. -/
def lastWins? : List Nat → Option Nat
  | [] => none
  | p :: l => match lastWins? l with
    | none => some p
    | some q => some q

/-- The prices of the observations of a pass that normalize to size `s`,
in page order. -/
def pricesFor (norm : Block → Option String) (blocks : List Block) (s : String) :
    List Nat :=
  (blocks.filter (fun b => norm b = some s)).map (fun b => b.2.2)

theorem omin_none_right (a : Option Nat) : omin a none = a := by
  cases a <;> rfl

theorem omin_assoc (a b c : Option Nat) : omin (omin a b) c = omin a (omin b c) := by
  cases a <;> cases b <;> cases c <;> simp [omin, Nat.min_assoc]

theorem pricesFor_cons (norm : Block → Option String) (b : Block) (bs : List Block)
    (s : String) :
    pricesFor norm (b :: bs) s =
      if norm b = some s then b.2.2 :: pricesFor norm bs s else pricesFor norm bs s := by
  by_cases h : norm b = some s <;> simp [pricesFor, h]

theorem dictGet_eq_none_of_not_mem {κ α : Type} [DecidableEq κ]
    (d : List (κ × α)) (k : κ) (h : k ∉ d.map Prod.fst) : dictGet d k = none := by
  induction d with
  | nil => rfl
  | cons p d ih =>
    simp only [List.map_cons, List.mem_cons] at h
    push_neg at h
    have : ¬(p.1 = k) := fun he => h.1 he.symm
    simp [dictGet, this, ih h.2]

theorem hasKey_false_iff {κ α : Type} [DecidableEq κ] (d : List (κ × α)) (k : κ) :
    hasKey d k = false ↔ k ∉ d.map Prod.fst := by
  rw [hasKey_eq_contains]
  simp

theorem hasKey_dictSet_iff {κ α : Type} [DecidableEq κ] (d : List (κ × α)) (k k' : κ)
    (v : α) : hasKey (dictSet d k v) k' = true ↔ hasKey d k' = true ∨ k' = k := by
  induction d with
  | nil => simp [dictSet, hasKey, eq_comm]
  | cons p d ih =>
    by_cases hp : p.1 = k
    · subst hp
      simp only [dictSet, if_pos rfl, hasKey]
      constructor
      · intro h
        rcases (by simpa using h : p.1 = k' ∨ hasKey d k' = true) with h | h
        · exact Or.inr h.symm
        · exact Or.inl (by simp [h])
      · intro h
        rcases h with h | h
        · rcases (by simpa using h : p.1 = k' ∨ hasKey d k' = true) with h | h
          · simp [h]
          · simp [h]
        · simp [h]
    · simp only [dictSet, if_neg hp, hasKey]
      constructor
      · intro h
        rcases (by simpa using h : p.1 = k' ∨ hasKey (dictSet d k v) k' = true) with h | h
        · exact Or.inl (by simp [h])
        · rcases (ih.mp h) with h' | h'
          · exact Or.inl (by simp [h'])
          · exact Or.inr h'
      · intro h
        rcases h with h | h
        · rcases (by simpa using h : p.1 = k' ∨ hasKey d k' = true) with h' | h'
          · simp [h']
          · simp [ih.mpr (Or.inl h')]
        · simp [ih.mpr (Or.inr h)]

/-- The value the `size_prices` min-update loop holds for `s` after one step. -/
theorem dictGet_minStep (norm : Block → Option String) (sp : List (String × Nat))
    (b : Block) (s : String) :
    dictGet (minStep norm sp b) s =
      if norm b = some s then omin (dictGet sp s) (some b.2.2) else dictGet sp s := by
  unfold minStep
  cases hn : norm b with
  | none => simp
  | some s' =>
    dsimp only
    by_cases hs : s' = s
    · subst hs
      rw [if_pos rfl]
      cases hg : dictGet sp s' with
      | none => dsimp only; rw [dictGet_dictSet_self]; simp [omin]
      | some old =>
        dsimp only
        by_cases hlt : b.2.2 < old
        · rw [if_pos hlt, dictGet_dictSet_self]
          simp only [omin, Option.some.injEq]
          omega
        · rw [if_neg hlt, hg]
          simp only [omin, Option.some.injEq]
          omega
    · have hcond : ¬((some s' : Option String) = some s) := by simp [hs]
      rw [if_neg hcond]
      cases hg : dictGet sp s' with
      | none =>
        dsimp only
        exact dictGet_dictSet_ne sp s' s b.2.2 (fun he => hs he.symm)
      | some old =>
        dsimp only
        by_cases hlt : b.2.2 < old
        · rw [if_pos hlt]
          exact dictGet_dictSet_ne sp s' s b.2.2 (fun he => hs he.symm)
        · rw [if_neg hlt]

/-- The `size_prices` dict holds, for each size, the minimum price among
the observations normalizing to it (combined with whatever the initial
dict held). -/
theorem dictGet_buildSizePrices (norm : Block → Option String) (blocks : List Block) :
    ∀ (init : List (String × Nat)) (s : String),
      dictGet (buildSizePrices norm init blocks) s =
        omin (dictGet init s) (minPrice? (pricesFor norm blocks s)) := by
  induction blocks with
  | nil => intro init s; simp [buildSizePrices, pricesFor, minPrice?, omin_none_right]
  | cons b bs ih =>
    intro init s
    have step : buildSizePrices norm init (b :: bs) =
        buildSizePrices norm (minStep norm init b) bs := rfl
    rw [step, ih, dictGet_minStep, pricesFor_cons]
    by_cases h : norm b = some s
    · simp only [if_pos h, minPrice?]
      rw [omin_assoc]
    · simp only [if_neg h]

theorem mem_keys_dictSet {κ α : Type} [DecidableEq κ] (d : List (κ × α)) (k : κ)
    (v : α) (k' : κ) (h : k' ∈ (dictSet d k v).map Prod.fst) :
    k' ∈ d.map Prod.fst ∨ k' = k := by
  rcases List.mem_map.mp h with ⟨p, hp, hfst⟩
  rcases mem_dictSet d k v p hp with h' | h'
  · exact Or.inl (hfst ▸ List.mem_map_of_mem Prod.fst h')
  · right
    rw [← hfst, h']

theorem nodupKeys_dictSet {κ α : Type} [DecidableEq κ] (d : List (κ × α)) (k : κ)
    (v : α) (h : (d.map Prod.fst).Nodup) : ((dictSet d k v).map Prod.fst).Nodup := by
  by_cases hk : hasKey d k = true
  · rw [mapFst_dictSet_of_hasKey d k v hk]
    exact h
  · rw [mapFst_dictSet_of_not_hasKey d k v (Bool.eq_false_iff.mpr hk)]
    have hnm : k ∉ d.map Prod.fst := (hasKey_false_iff d k).mp (Bool.eq_false_iff.mpr hk)
    simp [List.nodup_append, h, hnm]

theorem nodupKeys_minStep (norm : Block → Option String) (sp : List (String × Nat))
    (b : Block) (h : (sp.map Prod.fst).Nodup) :
    ((minStep norm sp b).map Prod.fst).Nodup := by
  unfold minStep
  cases norm b with
  | none => exact h
  | some s =>
    dsimp only
    cases dictGet sp s with
    | none => exact nodupKeys_dictSet sp s b.2.2 h
    | some old =>
      dsimp only
      by_cases hlt : b.2.2 < old
      · rw [if_pos hlt]
        exact nodupKeys_dictSet sp s b.2.2 h
      · rw [if_neg hlt]
        exact h

theorem nodupKeys_buildSizePrices (norm : Block → Option String) (blocks : List Block) :
    ∀ init : List (String × Nat), (init.map Prod.fst).Nodup →
      ((buildSizePrices norm init blocks).map Prod.fst).Nodup := by
  induction blocks with
  | nil => intro init h; exact h
  | cons b bs ih =>
    intro init h
    exact ih (minStep norm init b) (nodupKeys_minStep norm init b h)

theorem mem_keys_minStep (norm : Block → Option String) (sp : List (String × Nat))
    (b : Block) (k : String) (h : k ∈ (minStep norm sp b).map Prod.fst) :
    k ∈ sp.map Prod.fst ∨ norm b = some k := by
  unfold minStep at h
  cases hn : norm b with
  | none => rw [hn] at h; exact Or.inl h
  | some s =>
    rw [hn] at h
    dsimp only at h
    cases hg : dictGet sp s with
    | none =>
      rw [hg] at h
      rcases mem_keys_dictSet sp s b.2.2 k h with h' | h'
      · exact Or.inl h'
      · exact Or.inr (by rw [h'])
    | some old =>
      rw [hg] at h
      dsimp only at h
      by_cases hlt : b.2.2 < old
      · rw [if_pos hlt] at h
        rcases mem_keys_dictSet sp s b.2.2 k h with h' | h'
        · exact Or.inl h'
        · exact Or.inr (by rw [h'])
      · rw [if_neg hlt] at h
        exact Or.inl h

theorem mem_keys_buildSizePrices (norm : Block → Option String) (blocks : List Block) :
    ∀ (init : List (String × Nat)) (k : String),
      k ∈ (buildSizePrices norm init blocks).map Prod.fst →
      k ∈ init.map Prod.fst ∨ ∃ b ∈ blocks, norm b = some k := by
  induction blocks with
  | nil => intro init k h; exact Or.inl h
  | cons b bs ih =>
    intro init k h
    rcases ih (minStep norm init b) k h with h' | h'
    · rcases mem_keys_minStep norm init b k h' with h'' | h''
      · exact Or.inl h''
      · exact Or.inr ⟨b, by simp, h''⟩
    · rcases h' with ⟨b', hb', hn'⟩
      exact Or.inr ⟨b', by simp [hb'], hn'⟩

/-- Applying `pricing[size] = int(round(price))` over a duplicate-free `size_prices`
dict: the final table holds the rounded price for every size in
`size_prices` and is untouched elsewhere. -/
theorem dictGet_applyRounded (sp : List (String × Nat)) :
    ∀ (pr : Pricing) (s : String), (sp.map Prod.fst).Nodup →
      dictGet (applyRounded pr sp) s =
        match dictGet sp s with
        | some v => some (some (roundPrice v))
        | none => dictGet pr s := by
  induction sp with
  | nil => intro pr s _; simp [applyRounded, dictGet]
  | cons kv sp ih =>
    intro pr s hnd
    rw [List.map_cons, List.nodup_cons] at hnd
    have step : applyRounded pr (kv :: sp) =
        applyRounded (dictSet pr kv.1 (some (roundPrice kv.2))) sp := rfl
    rw [step, ih _ s hnd.2]
    by_cases hs : kv.1 = s
    · subst hs
      rw [dictGet_eq_none_of_not_mem sp kv.1 hnd.1]
      dsimp only
      rw [dictGet_dictSet_self]
      simp [dictGet]
    · have hcons : dictGet (kv :: sp) s = dictGet sp s := by simp [dictGet, hs]
      rw [hcons]
      cases dictGet sp s with
      | some v => rfl
      | none =>
        dsimp only
        exact dictGet_dictSet_ne pr kv.1 s _ (fun he => hs he.symm)

theorem mapFst_applyRounded (sp : List (String × Nat)) :
    ∀ pr : Pricing, (∀ k, k ∈ sp.map Prod.fst → hasKey pr k = true) →
      (applyRounded pr sp).map Prod.fst = pr.map Prod.fst := by
  induction sp with
  | nil => intro pr _; rfl
  | cons kv sp ih =>
    intro pr hsub
    have h1 : hasKey pr kv.1 = true := hsub kv.1 (by simp)
    have step : applyRounded pr (kv :: sp) =
        applyRounded (dictSet pr kv.1 (some (roundPrice kv.2))) sp := rfl
    rw [step, ih, mapFst_dictSet_of_hasKey pr kv.1 _ h1]
    intro k hk
    rw [hasKey_eq_contains, mapFst_dictSet_of_hasKey pr kv.1 _ h1, ← hasKey_eq_contains]
    exact hsub k (by simp [hk])

theorem mapFst_applyRoundedGuarded (sp : List (String × Nat)) :
    ∀ pr : Pricing, (applyRoundedGuarded pr sp).map Prod.fst = pr.map Prod.fst := by
  induction sp with
  | nil => intro pr; rfl
  | cons kv sp ih =>
    intro pr
    by_cases h : hasKey pr kv.1 = true
    · have step : applyRoundedGuarded pr (kv :: sp) =
          applyRoundedGuarded (dictSet pr kv.1 (some (roundPrice kv.2))) sp := by
        simp [applyRoundedGuarded, h]
      rw [step, ih, mapFst_dictSet_of_hasKey pr kv.1 _ h]
    · have step : applyRoundedGuarded pr (kv :: sp) = applyRoundedGuarded pr sp := by
        simp [applyRoundedGuarded, h]
      rw [step, ih]

theorem dictGet_applyRoundedGuarded (sp : List (String × Nat)) :
    ∀ (pr : Pricing) (s : String), (sp.map Prod.fst).Nodup →
      dictGet (applyRoundedGuarded pr sp) s =
        match dictGet sp s with
        | some v =>
          if hasKey pr s = true then some (some (roundPrice v)) else dictGet pr s
        | none => dictGet pr s := by
  induction sp with
  | nil => intro pr s _; simp [applyRoundedGuarded, dictGet]
  | cons kv sp ih =>
    intro pr s hnd
    rw [List.map_cons, List.nodup_cons] at hnd
    by_cases hkey : hasKey pr kv.1 = true
    · have step : applyRoundedGuarded pr (kv :: sp) =
          applyRoundedGuarded (dictSet pr kv.1 (some (roundPrice kv.2))) sp := by
        simp [applyRoundedGuarded, hkey]
      rw [step, ih _ s hnd.2]
      by_cases hs : kv.1 = s
      · subst hs
        rw [dictGet_eq_none_of_not_mem sp kv.1 hnd.1]
        dsimp only
        rw [dictGet_dictSet_self]
        simp [dictGet, hkey]
      · have hcons : dictGet (kv :: sp) s = dictGet sp s := by simp [dictGet, hs]
        rw [hcons]
        have hpres : hasKey (dictSet pr kv.1 (some (roundPrice kv.2))) s = hasKey pr s := by
          rw [hasKey_eq_contains, mapFst_dictSet_of_hasKey pr kv.1 _ hkey,
            ← hasKey_eq_contains]
        have hget : dictGet (dictSet pr kv.1 (some (roundPrice kv.2))) s = dictGet pr s :=
          dictGet_dictSet_ne pr kv.1 s _ (fun he => hs he.symm)
        cases dictGet sp s with
        | some v => dsimp only; rw [hpres, hget]
        | none => dsimp only; rw [hget]
    · have step : applyRoundedGuarded pr (kv :: sp) = applyRoundedGuarded pr sp := by
        simp [applyRoundedGuarded, hkey]
      rw [step, ih _ s hnd.2]
      by_cases hs : kv.1 = s
      · subst hs
        rw [dictGet_eq_none_of_not_mem sp kv.1 hnd.1]
        dsimp only
        simp [dictGet, hkey]
      · have hcons : dictGet (kv :: sp) s = dictGet sp s := by simp [dictGet, hs]
        rw [hcons]

theorem hasKey_emptyPricing_iff (s : String) :
    hasKey emptyPricing s = true ↔ s ∈ canonicalSizes := by
  constructor
  · intro h
    simp [hasKey, emptyPricing] at h
    rcases h with h | h | h | h | h <;> rw [← h] <;> simp [canonicalSizes]
  · intro h
    simp [canonicalSizes] at h
    rcases h with h | h | h | h | h <;> rw [h] <;> rfl

theorem emptyPricing_get_of_mem (s : String) (h : s ∈ canonicalSizes) :
    dictGet emptyPricing s = some none := by
  simp [canonicalSizes] at h
  rcases h with h | h | h | h | h <;> rw [h] <;> rfl

theorem psNorm_canonical (b : Block) (s : String) (h : psNorm b = some s) :
    hasKey emptyPricing s = true := by
  have hmem := dictGet_mem size_map_table (b.1, b.2.1) s h
  have hall : ∀ kv ∈ size_map_table, hasKey emptyPricing kv.2 = true := by decide
  exact hall _ hmem

theorem directNorm_canonical (b : Block) (s : String) (h : directNorm b = some s) :
    hasKey emptyPricing s = true := by
  unfold directNorm at h
  by_cases hk : hasKey emptyPricing (keyOf b.1 b.2.1) = true
  · rw [if_pos hk] at h
    cases h
    exact hk
  · rw [if_neg hk] at h
    cases h

theorem lockawayNorm_canonical (b : Block) (s : String) (h : lockawayNorm b = some s) :
    hasKey emptyPricing s = true := by
  unfold lockawayNorm at h
  have h2 := Option.join_eq_some.mp h
  have hmem := dictGet_mem lockaway_map_table _ _ h2
  have hall : ∀ kv ∈ lockaway_map_table, kv.2.all (hasKey emptyPricing) = true := by
    decide
  simpa [Option.all] using hall _ hmem

theorem woodlandsNorm_canonical (b : Block) (s : String) (h : woodlandsNorm b = some s) :
    hasKey emptyPricing s = true := by
  unfold woodlandsNorm at h
  by_cases hk : hasKey emptyPricing
      (if keyOf b.1 b.2.1 = "12x10" then "10x10"
       else if keyOf b.1 b.2.1 = "12x30" then "10x30" else keyOf b.1 b.2.1) = true
  · rw [if_pos hk] at h
    cases h
    exact hk
  · rw [if_neg hk] at h
    cases h

/-- The Honea Egypt loop keeps the key set of the dict it updates. -/
theorem hasKey_honeaStep (pr : Pricing) (b : Block) (k : String) :
    hasKey (honeaStep pr b) k = hasKey pr k := by
  unfold honeaStep
  by_cases hg : hasKey pr (keyOf b.1 b.2.1) = true
  · rw [if_pos hg, hasKey_eq_contains, mapFst_dictSet_of_hasKey _ _ _ hg,
      ← hasKey_eq_contains]
  · rw [if_neg hg]

/-- The Honea Egypt loop stores, for each canonical size, the LAST
observation whose key is that size (each new match overwrites). -/
theorem dictGet_honeaFold (blocks : List Block) :
    ∀ (pr : Pricing) (s : String), (∀ k, hasKey pr k = hasKey emptyPricing k) →
      dictGet (blocks.foldl honeaStep pr) s =
        match lastWins? (pricesFor directNorm blocks s) with
        | some p => some (some (roundPrice p))
        | none => dictGet pr s := by
  induction blocks with
  | nil => intro pr s _; simp [pricesFor, lastWins?]
  | cons b bs ih =>
    intro pr s hkeys
    have hkeys' : ∀ k, hasKey (honeaStep pr b) k = hasKey emptyPricing k := by
      intro k
      rw [hasKey_honeaStep]
      exact hkeys k
    have step : (b :: bs).foldl honeaStep pr = bs.foldl honeaStep (honeaStep pr b) := rfl
    rw [step, ih _ s hkeys', pricesFor_cons]
    by_cases hb : directNorm b = some s
    · rw [if_pos hb]
      have hkey : keyOf b.1 b.2.1 = s ∧ hasKey emptyPricing s = true := by
        unfold directNorm at hb
        by_cases hk : hasKey emptyPricing (keyOf b.1 b.2.1) = true
        · rw [if_pos hk] at hb
          cases hb
          exact ⟨rfl, hk⟩
        · rw [if_neg hk] at hb
          cases hb
      cases hl : lastWins? (pricesFor directNorm bs s) with
      | some q => simp [lastWins?, hl]
      | none =>
        simp only [lastWins?, hl]
        unfold honeaStep
        rw [hkey.1, if_pos (by rw [hkeys]; exact hkey.2)]
        exact dictGet_dictSet_self pr s _
    · rw [if_neg hb]
      cases hl : lastWins? (pricesFor directNorm bs s) with
      | some q => rfl
      | none =>
        dsimp only
        unfold honeaStep
        by_cases hg : hasKey pr (keyOf b.1 b.2.1) = true
        · rw [if_pos hg]
          have hne : keyOf b.1 b.2.1 ≠ s := by
            intro he
            apply hb
            unfold directNorm
            rw [if_pos (by rw [← hkeys]; exact hg), he]
          exact dictGet_dictSet_ne pr _ s _ (fun he => hne he.symm)
        · rw [if_neg hg]

/-- Public Storage: each canonical size holds the rounded minimum over the
observations `size_map` sends to it, or stays `None`. -/
theorem psCore_get (blocks : List Block) (s : String) (hs : s ∈ canonicalSizes) :
    dictGet (psCore blocks) s =
      some ((minPrice? (pricesFor psNorm blocks s)).map roundPrice) := by
  unfold psCore
  rw [dictGet_applyRounded _ emptyPricing s
    (nodupKeys_buildSizePrices psNorm blocks [] (by simp)),
    dictGet_buildSizePrices]
  have h0 : dictGet ([] : List (String × Nat)) s = none := rfl
  rw [h0]
  cases hmp : minPrice? (pricesFor psNorm blocks s) with
  | none =>
    dsimp only [omin]
    rw [emptyPricing_get_of_mem s hs]
    rfl
  | some v => rfl

/-- Montgomery: rounded minimum per canonical size. -/
theorem montgomeryCore_get (blocks : List Block) (s : String) (hs : s ∈ canonicalSizes) :
    dictGet (montgomeryCore blocks) s =
      some ((minPrice? (pricesFor directNorm blocks s)).map roundPrice) := by
  unfold montgomeryCore
  rw [dictGet_applyRounded _ emptyPricing s
    (nodupKeys_buildSizePrices directNorm blocks [] (by simp)),
    dictGet_buildSizePrices]
  have h0 : dictGet ([] : List (String × Nat)) s = none := rfl
  rw [h0]
  cases hmp : minPrice? (pricesFor directNorm blocks s) with
  | none =>
    dsimp only [omin]
    rw [emptyPricing_get_of_mem s hs]
    rfl
  | some v => rfl

/-- Woodlands: rounded minimum per canonical size after the 12x remap. -/
theorem woodlandsCore_get (blocks : List Block) (s : String) (hs : s ∈ canonicalSizes) :
    dictGet (woodlandsCore blocks) s =
      some ((minPrice? (pricesFor woodlandsNorm blocks s)).map roundPrice) := by
  unfold woodlandsCore
  rw [dictGet_applyRounded _ emptyPricing s
    (nodupKeys_buildSizePrices woodlandsNorm blocks [] (by simp)),
    dictGet_buildSizePrices]
  have h0 : dictGet ([] : List (String × Nat)) s = none := rfl
  rw [h0]
  cases hmp : minPrice? (pricesFor woodlandsNorm blocks s) with
  | none =>
    dsimp only [omin]
    rw [emptyPricing_get_of_mem s hs]
    rfl
  | some v => rfl

/-- Lockaway: rounded minimum per canonical size over BOTH normalization
routes (direct canonical keys, and the `lockaway_map` remaps). -/
theorem lockawayCore_get (blocks : List Block) (s : String) (hs : s ∈ canonicalSizes) :
    dictGet (lockawayCore blocks) s =
      some ((omin (minPrice? (pricesFor directNorm blocks s))
                  (minPrice? (pricesFor lockawayNorm blocks s))).map roundPrice) := by
  unfold lockawayCore
  rw [dictGet_applyRoundedGuarded _ emptyPricing s
    (nodupKeys_buildSizePrices lockawayNorm blocks _
      (nodupKeys_buildSizePrices directNorm blocks [] (by simp))),
    dictGet_buildSizePrices, dictGet_buildSizePrices]
  have h0 : dictGet ([] : List (String × Nat)) s = none := rfl
  rw [h0]
  have hkey : hasKey emptyPricing s = true := (hasKey_emptyPricing_iff s).mpr hs
  cases hmp : omin (minPrice? (pricesFor directNorm blocks s))
      (minPrice? (pricesFor lockawayNorm blocks s)) with
  | none =>
    have hmp2 : omin (omin none (minPrice? (pricesFor directNorm blocks s)))
        (minPrice? (pricesFor lockawayNorm blocks s)) = none := hmp
    rw [hmp2]
    dsimp only
    rw [emptyPricing_get_of_mem s hs]
    rfl
  | some v =>
    have hmp2 : omin (omin none (minPrice? (pricesFor directNorm blocks s)))
        (minPrice? (pricesFor lockawayNorm blocks s)) = some v := hmp
    rw [hmp2]
    dsimp only
    rw [if_pos hkey]
    rfl

/-- Honea Egypt: the LAST observation with a canonical key wins, rounded. -/
theorem honeaCore_get (blocks : List Block) (s : String) (hs : s ∈ canonicalSizes) :
    dictGet (honeaCore blocks) s =
      some ((lastWins? (pricesFor directNorm blocks s)).map roundPrice) := by
  unfold honeaCore
  rw [dictGet_honeaFold blocks emptyPricing s (fun _ => rfl)]
  cases hl : lastWins? (pricesFor directNorm blocks s) with
  | none =>
    dsimp only
    rw [emptyPricing_get_of_mem s hs]
    rfl
  | some p => rfl

theorem mem_buildExisting_aux (cs : List Competitor) :
    ∀ (d : List (String × Competitor)) (kv : String × Competitor),
      kv ∈ cs.foldl (fun d c => dictSet d c.name c) d →
      kv ∈ d ∨ (kv.1 = kv.2.name ∧ kv.2 ∈ cs) := by
  induction cs with
  | nil => intro d kv h; exact Or.inl h
  | cons c cs ih =>
    intro d kv h
    rcases ih (dictSet d c.name c) kv h with h' | h'
    · rcases mem_dictSet d c.name c kv h' with h'' | h''
      · exact Or.inl h''
      · refine Or.inr ⟨?_, ?_⟩
        · rw [h'']
        · rw [h'']
          simp
    · exact Or.inr ⟨h'.1, by simp [h'.2]⟩

/-- Every entry of the `existing` dict is one of the loaded competitors,
keyed by its name. -/
theorem buildExisting_name (cs : List Competitor) (n : String) (c : Competitor)
    (h : dictGet (buildExisting cs) n = some c) : c.name = n ∧ c ∈ cs := by
  have hmem := dictGet_mem _ n c h
  rcases mem_buildExisting_aux cs [] (n, c) hmem with h' | h'
  · cases h'
  · exact ⟨h'.1.symm, h'.2⟩

theorem foldl_buildExisting_get_of_notin (cs : List Competitor) :
    ∀ (d : List (String × Competitor)) (n : String), (∀ c ∈ cs, c.name ≠ n) →
      dictGet (cs.foldl (fun d c => dictSet d c.name c) d) n = dictGet d n := by
  induction cs with
  | nil => intro d n _; rfl
  | cons c cs ih =>
    intro d n hne
    have step : (c :: cs).foldl (fun d c => dictSet d c.name c) d =
        cs.foldl (fun d c => dictSet d c.name c) (dictSet d c.name c) := rfl
    rw [step, ih _ n (fun c' hc' => hne c' (by simp [hc']))]
    exact dictGet_dictSet_ne d c.name n c (fun he => hne c (by simp) he.symm)

theorem dictGet_buildExisting_aux (cs : List Competitor) :
    ∀ d : List (String × Competitor), (cs.map Competitor.name).Nodup →
      ∀ c ∈ cs, dictGet (cs.foldl (fun d c => dictSet d c.name c) d) c.name = some c := by
  induction cs with
  | nil => intro d _ c hc; cases hc
  | cons c0 cs ih =>
    intro d hnd c hc
    rw [List.map_cons, List.nodup_cons] at hnd
    have step : (c0 :: cs).foldl (fun d c => dictSet d c.name c) d =
        cs.foldl (fun d c => dictSet d c.name c) (dictSet d c0.name c0) := rfl
    rcases List.mem_cons.mp hc with rfl | hc'
    · rw [step, foldl_buildExisting_get_of_notin cs _ c.name
        (fun c' hcm he => hnd.1 (he ▸ List.mem_map_of_mem Competitor.name hcm))]
      exact dictGet_dictSet_self d c.name c
    · rw [step]
      exact ih (dictSet d c0.name c0) hnd.2 c hc'

/-- With duplicate-free names, looking a competitor's name up in the
`existing` dict returns exactly that competitor. -/
theorem dictGet_buildExisting_of_nodup (cs : List Competitor)
    (h : (cs.map Competitor.name).Nodup) (c : Competitor) (hc : c ∈ cs) :
    dictGet (buildExisting cs) c.name = some c :=
  dictGet_buildExisting_aux cs [] h c hc

theorem processTarget_fst_name (ex : List (String × Competitor)) (t : RunTarget) :
    (processTarget ex t).1.1 = t.1 := by
  unfold processTarget
  cases t.2 with
  | none => rfl
  | some o => cases o <;> rfl

theorem processTarget_skip (ex : List (String × Competitor)) (t : RunTarget)
    (h : t.2 = none ∨ t.2 = some none) :
    processTarget ex t = ((t.1, oldPricingOf ex t.1), []) := by
  unfold processTarget
  rcases h with h | h <;> rw [h]

theorem processTarget_success (ex : List (String × Competitor)) (t : RunTarget)
    (np : Pricing) (h : t.2 = some (some np)) :
    processTarget ex t = ((t.1, np), changesFor t.1 (oldPricingOf ex t.1) np) := by
  unfold processTarget
  rw [h]

theorem processTarget_changes_cname (ex : List (String × Competitor)) (t : RunTarget)
    (ch : Change) (h : ch ∈ (processTarget ex t).2) : ch.cname = t.1 := by
  unfold processTarget at h
  cases ht : t.2 with
  | none => rw [ht] at h; cases h
  | some o =>
    cases o with
    | none => rw [ht] at h; cases h
    | some np =>
      rw [ht] at h
      dsimp only [changesFor] at h
      rcases List.mem_filterMap.mp h with ⟨s, _, hs⟩
      by_cases hne : joinGet (oldPricingOf ex t.1) s ≠ joinGet np s
      · rw [if_pos hne] at hs
        cases hs
        rfl
      · rw [if_neg hne] at hs
        cases hs

theorem changesFor_self (n : String) (p : Pricing) : changesFor n p p = [] := by
  simp [changesFor]

theorem runMerge_fst (prev : List Competitor) (targets : List RunTarget) :
    (runMerge prev targets).1 =
      targets.map (fun t =>
        mergedEntry (buildExisting prev) (processTarget (buildExisting prev) t).1) := by
  simp [runMerge, List.map_map, Function.comp]

theorem runMerge_snd (prev : List Competitor) (targets : List RunTarget) :
    (runMerge prev targets).2 =
      (targets.map (fun t => (processTarget (buildExisting prev) t).2)).flatten := by
  simp only [runMerge, List.map_map]
  rfl

theorem mergedEntry_pricing (ex : List (String × Competitor)) (u : String × Pricing) :
    (mergedEntry ex u).pricing = u.2 := by
  unfold mergedEntry
  cases dictGet ex u.1 <;> rfl

theorem mergedEntry_name (prev : List Competitor) (u : String × Pricing) :
    (mergedEntry (buildExisting prev) u).name = u.1 := by
  unfold mergedEntry
  cases hg : dictGet (buildExisting prev) u.1 with
  | none => rfl
  | some c =>
    dsimp only
    exact (buildExisting_name prev u.1 c hg).1

theorem runMerge_names (prev : List Competitor) (targets : List RunTarget) :
    (runMerge prev targets).1.map Competitor.name = targets.map Prod.fst := by
  rw [runMerge_fst, List.map_map]
  apply List.map_congr_left
  intro t _
  simp only [Function.comp]
  rw [mergedEntry_name, processTarget_fst_name]

/-- A stored price is valid when it is absent or non-negative. -/
def priceOK : Option Int → Bool
  | none => true
  | some v => 0 ≤ v

/-- The PricingTable invariant: exactly the five canonical keys, in their
fixed order, each absent or a non-negative whole amount. -/
def PricingWF (p : Pricing) : Prop :=
  p.map Prod.fst = canonicalSizes ∧ ∀ kv ∈ p, priceOK kv.2 = true

theorem roundPrice_nonneg (c : Nat) : 0 ≤ roundPrice c := by
  simp only [roundPrice]
  split
  · omega
  · split
    · omega
    · split <;> omega

theorem priceOK_applyRounded (sp : List (String × Nat)) :
    ∀ pr : Pricing, (∀ kv ∈ pr, priceOK kv.2 = true) →
      ∀ kv ∈ applyRounded pr sp, priceOK kv.2 = true := by
  induction sp with
  | nil => intro pr h kv hkv; exact h kv hkv
  | cons x sp ih =>
    intro pr h kv hkv
    refine ih _ ?_ kv hkv
    intro kv' hkv'
    rcases mem_dictSet pr x.1 _ kv' hkv' with h' | h'
    · exact h kv' h'
    · rw [h']
      simp [priceOK, roundPrice_nonneg x.2]

theorem priceOK_applyRoundedGuarded (sp : List (String × Nat)) :
    ∀ pr : Pricing, (∀ kv ∈ pr, priceOK kv.2 = true) →
      ∀ kv ∈ applyRoundedGuarded pr sp, priceOK kv.2 = true := by
  induction sp with
  | nil => intro pr h kv hkv; exact h kv hkv
  | cons x sp ih =>
    intro pr h kv hkv
    by_cases hg : hasKey pr x.1 = true
    · have step : applyRoundedGuarded pr (x :: sp) =
          applyRoundedGuarded (dictSet pr x.1 (some (roundPrice x.2))) sp := by
        simp [applyRoundedGuarded, hg]
      rw [step] at hkv
      refine ih _ ?_ kv hkv
      intro kv' hkv'
      rcases mem_dictSet pr x.1 _ kv' hkv' with h' | h'
      · exact h kv' h'
      · rw [h']
        simp [priceOK, roundPrice_nonneg x.2]
    · have step : applyRoundedGuarded pr (x :: sp) = applyRoundedGuarded pr sp := by
        simp [applyRoundedGuarded, hg]
      rw [step] at hkv
      exact ih _ h kv hkv

theorem priceOK_honeaFold (blocks : List Block) :
    ∀ pr : Pricing, (∀ kv ∈ pr, priceOK kv.2 = true) →
      ∀ kv ∈ blocks.foldl honeaStep pr, priceOK kv.2 = true := by
  induction blocks with
  | nil => intro pr h kv hkv; exact h kv hkv
  | cons b bs ih =>
    intro pr h kv hkv
    refine ih _ ?_ kv hkv
    intro kv' hkv'
    unfold honeaStep at hkv'
    by_cases hg : hasKey pr (keyOf b.1 b.2.1) = true
    · rw [if_pos hg] at hkv'
      rcases mem_dictSet pr _ _ kv' hkv' with h' | h'
      · exact h kv' h'
      · rw [h']
        simp [priceOK, roundPrice_nonneg b.2.2]
    · rw [if_neg hg] at hkv'
      exact h kv' hkv'

theorem mapFst_honeaFold (blocks : List Block) :
    ∀ pr : Pricing, (blocks.foldl honeaStep pr).map Prod.fst = pr.map Prod.fst := by
  induction blocks with
  | nil => intro pr; rfl
  | cons b bs ih =>
    intro pr
    have step : (b :: bs).foldl honeaStep pr = bs.foldl honeaStep (honeaStep pr b) := rfl
    rw [step, ih]
    unfold honeaStep
    by_cases hg : hasKey pr (keyOf b.1 b.2.1) = true
    · rw [if_pos hg]
      exact mapFst_dictSet_of_hasKey pr _ _ hg
    · rw [if_neg hg]

theorem pricingWF_emptyPricing : PricingWF emptyPricing := by
  constructor
  · rfl
  · decide

theorem mapFst_minCore (norm : Block → Option String)
    (hnorm : ∀ b s, norm b = some s → hasKey emptyPricing s = true)
    (blocks : List Block) :
    (applyRounded emptyPricing (buildSizePrices norm [] blocks)).map Prod.fst =
      canonicalSizes := by
  rw [mapFst_applyRounded]
  · rfl
  · intro k hk
    rcases mem_keys_buildSizePrices norm blocks [] k hk with h | ⟨b, _, hb⟩
    · cases h
    · exact hnorm b k hb

theorem pricingWF_minCore (norm : Block → Option String)
    (hnorm : ∀ b s, norm b = some s → hasKey emptyPricing s = true)
    (blocks : List Block) :
    PricingWF (applyRounded emptyPricing (buildSizePrices norm [] blocks)) := by
  constructor
  · exact mapFst_minCore norm hnorm blocks
  · exact priceOK_applyRounded _ emptyPricing (by decide)

theorem pricingWF_psCore (blocks : List Block) : PricingWF (psCore blocks) :=
  pricingWF_minCore psNorm psNorm_canonical blocks

theorem pricingWF_montgomeryCore (blocks : List Block) :
    PricingWF (montgomeryCore blocks) :=
  pricingWF_minCore directNorm directNorm_canonical blocks

theorem pricingWF_woodlandsCore (blocks : List Block) :
    PricingWF (woodlandsCore blocks) :=
  pricingWF_minCore woodlandsNorm woodlandsNorm_canonical blocks

theorem pricingWF_lockawayCore (blocks : List Block) : PricingWF (lockawayCore blocks) := by
  constructor
  · rw [lockawayCore, mapFst_applyRoundedGuarded]
    rfl
  · exact priceOK_applyRoundedGuarded _ emptyPricing (by decide)

theorem pricingWF_honeaCore (blocks : List Block) : PricingWF (honeaCore blocks) := by
  constructor
  · rw [honeaCore, mapFst_honeaFold]
    rfl
  · exact priceOK_honeaFold _ emptyPricing (by decide)

/-- Every pricing written back by the merge is either a successful scrape's
table or a carried-forward previous table (or the empty default). -/
theorem pricingWF_runMerge (prev : List Competitor) (targets : List RunTarget)
    (hprev : ∀ c ∈ prev, PricingWF c.pricing)
    (hnew : ∀ t ∈ targets, ∀ np, t.2 = some (some np) → PricingWF np) :
    ∀ c ∈ (runMerge prev targets).1, PricingWF c.pricing := by
  intro c hc
  rw [runMerge_fst] at hc
  rcases List.mem_map.mp hc with ⟨t, ht, rfl⟩
  rw [mergedEntry_pricing]
  have holdWF : PricingWF (oldPricingOf (buildExisting prev) t.1) := by
    unfold oldPricingOf
    cases hg : dictGet (buildExisting prev) t.1 with
    | none => exact pricingWF_emptyPricing
    | some c' =>
      dsimp only
      exact hprev c' (buildExisting_name prev t.1 c' hg).2
  cases ht2 : t.2 with
  | none =>
    rw [processTarget_skip _ t (Or.inl ht2)]
    exact holdWF
  | some o =>
    cases o with
    | none =>
      rw [processTarget_skip _ t (Or.inr ht2)]
      exact holdWF
    | some np =>
      rw [processTarget_success _ t np ht2]
      exact hnew t ht np ht2

/-!
## Claims
-/

/-- C1 (counterexample): the Honea Egypt strategy does not reduce to the
minimum.  With two observations of size 5x10 at 50.00 then 100.00 dollars,
the stored value is 100 — the LAST observation — while the minimum of the
normalizing observations rounds to 50. -/
theorem claim_C1_counterexample :
    scrape_honea_egypt (some "p") [(5, 10, 5000), (5, 10, 10000)] =
      some (honeaCore [(5, 10, 5000), (5, 10, 10000)]) ∧
    joinGet (honeaCore [(5, 10, 5000), (5, 10, 10000)]) "5x10" = some 100 ∧
    (minPrice? (pricesFor directNorm [(5, 10, 5000), (5, 10, 10000)] "5x10")).map
        roundPrice = some 50 := by
  refine ⟨?_, ?_, ?_⟩ <;> decide

/-- C1 (amended): for every extraction pass and every canonical size, the
Public Storage, Lockaway, Montgomery and Woodlands tables hold exactly the
rounded minimum price among the pass's observations normalizing to that
size (`None`, never zero, when no observation normalizes); the Honea Egypt
table instead holds the rounded price of the LAST normalizing observation. -/
theorem claim_C1_amended (blocks : List Block) (s : String) (hs : s ∈ canonicalSizes) :
    dictGet (psCore blocks) s =
      some ((minPrice? (pricesFor psNorm blocks s)).map roundPrice) ∧
    dictGet (lockawayCore blocks) s =
      some ((omin (minPrice? (pricesFor directNorm blocks s))
                  (minPrice? (pricesFor lockawayNorm blocks s))).map roundPrice) ∧
    dictGet (montgomeryCore blocks) s =
      some ((minPrice? (pricesFor directNorm blocks s)).map roundPrice) ∧
    dictGet (woodlandsCore blocks) s =
      some ((minPrice? (pricesFor woodlandsNorm blocks s)).map roundPrice) ∧
    dictGet (honeaCore blocks) s =
      some ((lastWins? (pricesFor directNorm blocks s)).map roundPrice) :=
  ⟨psCore_get blocks s hs, lockawayCore_get blocks s hs, montgomeryCore_get blocks s hs,
   woodlandsCore_get blocks s hs, honeaCore_get blocks s hs⟩

/-- C1 witness: the amended claim evaluated on a concrete pass. -/
theorem claim_C1_amended_witness :
    dictGet (psCore [(5, 14, 4100), (5, 15, 3900)]) "5x10" =
      some ((minPrice? (pricesFor psNorm [(5, 14, 4100), (5, 15, 3900)] "5x10")).map
        roundPrice) ∧
    dictGet (lockawayCore [(5, 14, 4100), (5, 15, 3900)]) "5x10" =
      some ((omin (minPrice? (pricesFor directNorm [(5, 14, 4100), (5, 15, 3900)] "5x10"))
                  (minPrice? (pricesFor lockawayNorm [(5, 14, 4100), (5, 15, 3900)] "5x10"))).map
        roundPrice) ∧
    dictGet (montgomeryCore [(5, 14, 4100), (5, 15, 3900)]) "5x10" =
      some ((minPrice? (pricesFor directNorm [(5, 14, 4100), (5, 15, 3900)] "5x10")).map
        roundPrice) ∧
    dictGet (woodlandsCore [(5, 14, 4100), (5, 15, 3900)]) "5x10" =
      some ((minPrice? (pricesFor woodlandsNorm [(5, 14, 4100), (5, 15, 3900)] "5x10")).map
        roundPrice) ∧
    dictGet (honeaCore [(5, 14, 4100), (5, 15, 3900)]) "5x10" =
      some ((lastWins? (pricesFor directNorm [(5, 14, 4100), (5, 15, 3900)] "5x10")).map
        roundPrice) :=
  claim_C1_amended [(5, 14, 4100), (5, 15, 3900)] "5x10" (by decide)

/-- C2 (counterexample): not every strategy attempts a relaxed fallback
pattern — only Public Storage does; Lockaway runs a single pattern. -/
theorem claim_C2_counterexample :
    ¬ (∀ site : Site, 1 ≤ fallbackAttempts site) := by
  intro h
  exact absurd (h Site.lockaway) (by decide)

/-- C2 (amended): only the Public Storage strategy attempts relaxed
fallback patterns (two of them) after its primary pattern yields zero
matches; every other strategy runs exactly one pattern with no fallback.
For every strategy, zero matches on a non-empty page produce the
all-absent PricingTable as a normal outcome, not a failure. -/
theorem claim_C2_amended (h : String) (hne : h ≠ "") :
    fallbackAttempts Site.publicStorage = 2 ∧
    (∀ site : Site, site ≠ Site.publicStorage → fallbackAttempts site = 0) ∧
    scrape_public_storage (some h) [] [] [] = some emptyPricing ∧
    scrape_lockaway (some h) [] = some emptyPricing ∧
    scrape_honea_egypt (some h) [] = some emptyPricing ∧
    scrape_montgomery (some h) [] = some emptyPricing ∧
    scrape_woodlands_sao (some h) [] = some emptyPricing := by
  refine ⟨rfl, ?_, ?_, ?_, ?_, ?_, ?_⟩
  · intro site hsite
    cases site
    · exact absurd rfl hsite
    all_goals rfl
  · simp only [scrape_public_storage, if_neg hne]
    rfl
  · simp only [scrape_lockaway, if_neg hne]
    rfl
  · simp only [scrape_honea_egypt, if_neg hne]
    rfl
  · simp only [scrape_montgomery, if_neg hne]
    rfl
  · simp only [scrape_woodlands_sao, if_neg hne]
    rfl

/-- C2 witness: the amended claim at a concrete non-empty page. -/
theorem claim_C2_amended_witness :
    fallbackAttempts Site.publicStorage = 2 ∧
    (∀ site : Site, site ≠ Site.publicStorage → fallbackAttempts site = 0) ∧
    scrape_public_storage (some "x") [] [] [] = some emptyPricing ∧
    scrape_lockaway (some "x") [] = some emptyPricing ∧
    scrape_honea_egypt (some "x") [] = some emptyPricing ∧
    scrape_montgomery (some "x") [] = some emptyPricing ∧
    scrape_woodlands_sao (some "x") [] = some emptyPricing :=
  claim_C2_amended "x" (by decide)

/-- C3: running the merge a second time with the identical per-competitor
scrape results against its own output detects zero changes. -/
theorem claim_C3_merge_idempotent (prev : List Competitor) (targets : List RunTarget)
    (hnd : (targets.map Prod.fst).Nodup) :
    (runMerge (runMerge prev targets).1 targets).2 = [] := by
  rw [runMerge_snd, List.flatten_eq_nil_iff]
  intro l hl
  rcases List.mem_map.mp hl with ⟨t, ht, rfl⟩
  cases ht2 : t.2 with
  | none => rw [processTarget_skip _ t (Or.inl ht2)]
  | some o =>
    cases o with
    | none => rw [processTarget_skip _ t (Or.inr ht2)]
    | some np =>
      rw [processTarget_success _ t np ht2]
      dsimp only
      have hmem : mergedEntry (buildExisting prev)
          (processTarget (buildExisting prev) t).1 ∈ (runMerge prev targets).1 := by
        rw [runMerge_fst]
        exact List.mem_map_of_mem _ ht
      have hnames : ((runMerge prev targets).1.map Competitor.name).Nodup := by
        rw [runMerge_names]
        exact hnd
      have hget := dictGet_buildExisting_of_nodup _ hnames _ hmem
      have hname : (mergedEntry (buildExisting prev)
          (processTarget (buildExisting prev) t).1).name = t.1 := by
        rw [mergedEntry_name, processTarget_fst_name]
      rw [hname] at hget
      have hpr : (mergedEntry (buildExisting prev)
          (processTarget (buildExisting prev) t).1).pricing = np := by
        rw [mergedEntry_pricing, processTarget_success _ t np ht2]
      have hold : oldPricingOf (buildExisting (runMerge prev targets).1) t.1 = np := by
        unfold oldPricingOf
        rw [hget]
        exact hpr
      rw [hold]
      exact changesFor_self t.1 np

/-- C3 witness: idempotence on a concrete store and target list. -/
theorem claim_C3_witness :
    (runMerge
      (runMerge
        [⟨"A", [("5x10", some 59), ("10x10", none), ("10x15", some 89),
                ("10x20", none), ("10x30", none)], [("address", "1 Main St")]⟩]
        [("A", some (some emptyPricing)), ("B", none)]).1
      [("A", some (some emptyPricing)), ("B", none)]).2 = [] :=
  claim_C3_merge_idempotent
    [⟨"A", [("5x10", some 59), ("10x10", none), ("10x15", some 89),
            ("10x20", none), ("10x30", none)], [("address", "1 Main St")]⟩]
    [("A", some (some emptyPricing)), ("B", none)] (by decide)

theorem mergedEntry_of_found (ex : List (String × Competitor)) (u : String × Pricing)
    (c : Competitor) (hc : dictGet ex u.1 = some c) :
    mergedEntry ex u = { c with pricing := u.2 } := by
  unfold mergedEntry
  rw [hc]

/-- C4: for every competitor of the previous snapshot that the run
processes, the merged entry at the same position keeps its name and every
non-pricing field verbatim, and only `pricing` is replaced (by the scrape
result, or the carried-forward table). -/
theorem claim_C4_merge_preserves_metadata (prev : List Competitor)
    (targets : List RunTarget) (i : Nat) (hi : i < targets.length) (c : Competitor)
    (hc : dictGet (buildExisting prev) (targets[i].1) = some c) :
    ∃ hj : i < (runMerge prev targets).1.length,
      ((runMerge prev targets).1[i]).name = c.name ∧
      ((runMerge prev targets).1[i]).meta = c.meta ∧
      ((runMerge prev targets).1[i]).pricing =
        (processTarget (buildExisting prev) targets[i]).1.2 := by
  have hlen : (runMerge prev targets).1.length = targets.length := by
    rw [runMerge_fst, List.length_map]
  have hj : i < (runMerge prev targets).1.length := by
    rw [hlen]
    exact hi
  have hkey : (runMerge prev targets).1[i] =
      mergedEntry (buildExisting prev)
        (processTarget (buildExisting prev) targets[i]).1 := by
    rw [List.getElem_of_eq (runMerge_fst prev targets) hj, List.getElem_map]
  have hc2 : dictGet (buildExisting prev)
      (processTarget (buildExisting prev) targets[i]).1.1 = some c := by
    rw [processTarget_fst_name]
    exact hc
  refine ⟨hj, ?_, ?_, ?_⟩ <;> rw [hkey, mergedEntry_of_found _ _ c hc2]

/-- C4 witness: metadata preservation on a concrete snapshot. -/
theorem claim_C4_witness :
    ∃ hj : 0 < (runMerge
        [⟨"A", emptyPricing, [("address", "1 Main St"), ("phone", "555")]⟩]
        [("A", some (some emptyPricing))]).1.length,
      ((runMerge [⟨"A", emptyPricing, [("address", "1 Main St"), ("phone", "555")]⟩]
          [("A", some (some emptyPricing))]).1[0]).name =
        (Competitor.mk "A" emptyPricing [("address", "1 Main St"), ("phone", "555")]).name ∧
      ((runMerge [⟨"A", emptyPricing, [("address", "1 Main St"), ("phone", "555")]⟩]
          [("A", some (some emptyPricing))]).1[0]).meta =
        (Competitor.mk "A" emptyPricing [("address", "1 Main St"), ("phone", "555")]).meta ∧
      ((runMerge [⟨"A", emptyPricing, [("address", "1 Main St"), ("phone", "555")]⟩]
          [("A", some (some emptyPricing))]).1[0]).pricing =
        (processTarget
          (buildExisting [⟨"A", emptyPricing, [("address", "1 Main St"), ("phone", "555")]⟩])
          ("A", some (some emptyPricing))).1.2 :=
  claim_C4_merge_preserves_metadata
    [⟨"A", emptyPricing, [("address", "1 Main St"), ("phone", "555")]⟩]
    [("A", some (some emptyPricing))] 0 (by decide)
    (Competitor.mk "A" emptyPricing [("address", "1 Main St"), ("phone", "555")])
    (by decide)

/-- C5: a competitor whose scrape was skipped (no URL/strategy) or failed
(fetcher returned failure) keeps its previous PricingTable in the merged
snapshot and contributes no change entries, whatever its prior data. -/
theorem claim_C5_skip_carries_forward (prev : List Competitor)
    (targets : List RunTarget) (hnd : (targets.map Prod.fst).Nodup) (t : RunTarget)
    (ht : t ∈ targets) (hskip : t.2 = none ∨ t.2 = some none) :
    (∀ ch ∈ (runMerge prev targets).2, ch.cname ≠ t.1) ∧
    (∀ c ∈ (runMerge prev targets).1, c.name = t.1 →
      c.pricing = oldPricingOf (buildExisting prev) t.1) := by
  constructor
  · intro ch hch heq
    rw [runMerge_snd] at hch
    rcases List.mem_flatten.mp hch with ⟨l, hl, hchl⟩
    rcases List.mem_map.mp hl with ⟨u, hu, rfl⟩
    have hcn := processTarget_changes_cname _ u ch hchl
    have hun : u.1 = t.1 := by
      rw [← hcn]
      exact heq
    have hut : u = t := List.inj_on_of_nodup_map hnd hu ht hun
    subst hut
    rw [processTarget_skip _ u hskip] at hchl
    simp at hchl
  · intro c hc hname
    rw [runMerge_fst] at hc
    rcases List.mem_map.mp hc with ⟨u, hu, rfl⟩
    have hn2 : u.1 = t.1 := by
      rw [← hname, mergedEntry_name, processTarget_fst_name]
    have hut : u = t := List.inj_on_of_nodup_map hnd hu ht hn2
    subst hut
    rw [mergedEntry_pricing, processTarget_skip _ u hskip]

/-- C5 witness: a skipped competitor with prior data on a concrete run. -/
theorem claim_C5_witness :
    (∀ ch ∈ (runMerge
        [⟨"B", [("5x10", some 59), ("10x10", none), ("10x15", some 89),
                ("10x20", none), ("10x30", none)], [("phone", "555")]⟩]
        [("A", some (some emptyPricing)), ("B", none)]).2, ch.cname ≠ "B") ∧
    (∀ c ∈ (runMerge
        [⟨"B", [("5x10", some 59), ("10x10", none), ("10x15", some 89),
                ("10x20", none), ("10x30", none)], [("phone", "555")]⟩]
        [("A", some (some emptyPricing)), ("B", none)]).1, c.name = "B" →
      c.pricing = oldPricingOf (buildExisting
        [⟨"B", [("5x10", some 59), ("10x10", none), ("10x15", some 89),
                ("10x20", none), ("10x30", none)], [("phone", "555")]⟩]) "B") :=
  claim_C5_skip_carries_forward
    [⟨"B", [("5x10", some 59), ("10x10", none), ("10x15", some 89),
            ("10x20", none), ("10x30", none)], [("phone", "555")]⟩]
    [("A", some (some emptyPricing)), ("B", none)] (by decide)
    ("B", none) (by decide) (Or.inl rfl)

/-- C6: the claim says a malformed persisted store must load as "no prior
data" and never be fatal; the code only defaults when data.json is
MISSING — an existing file that fails to parse raises an uncaught
`json.JSONDecodeError` and the run terminates fatally. -/
theorem claim_C6_malformed_store_fatal :
    loadStore StoreFile.malformed =
      Except.error "json.JSONDecodeError propagates and the run aborts" ∧
    loadStore StoreFile.missing =
      Except.ok { lastUpdated := none, competitors := [] } :=
  ⟨rfl, rfl⟩

/-- C7 (counterexample): a successful fetch returning EMPTY page text is
not treated as a success whose extraction proceeds — `if not html` is also
taken for the empty string, so the scraper returns the failure signal
(`None`) and the previous pricing is carried forward, not an all-absent
table. -/
theorem claim_C7_counterexample :
    scrape_lockaway (some "") [] = none ∧
    scrape_lockaway (some "") [] ≠ some emptyPricing := by
  decide

/-- C7 (amended): `fetch` does signal failure (`None`) distinctly from an
empty page (`""`), but every scraper's `if not html` guard treats the two
identically, returning `None` (so the previous table is carried forward);
extraction proceeds only on non-empty page text. -/
theorem claim_C7_amended (blocks blocks2 : List Block) (pricesRaw : List Nat)
    (h : String) (hne : h ≠ "") :
    (scrape_public_storage none blocks blocks2 pricesRaw = none ∧
      scrape_public_storage (some "") blocks blocks2 pricesRaw = none ∧
      scrape_public_storage (some h) blocks blocks2 pricesRaw ≠ none) ∧
    (scrape_lockaway none blocks = none ∧ scrape_lockaway (some "") blocks = none ∧
      scrape_lockaway (some h) blocks = some (lockawayCore blocks)) ∧
    (scrape_honea_egypt none blocks = none ∧ scrape_honea_egypt (some "") blocks = none ∧
      scrape_honea_egypt (some h) blocks = some (honeaCore blocks)) ∧
    (scrape_montgomery none blocks = none ∧ scrape_montgomery (some "") blocks = none ∧
      scrape_montgomery (some h) blocks = some (montgomeryCore blocks)) ∧
    (scrape_woodlands_sao none blocks = none ∧
      scrape_woodlands_sao (some "") blocks = none ∧
      scrape_woodlands_sao (some h) blocks = some (woodlandsCore blocks)) := by
  refine ⟨⟨rfl, rfl, ?_⟩, ⟨rfl, rfl, ?_⟩, ⟨rfl, rfl, ?_⟩, ⟨rfl, rfl, ?_⟩, ⟨rfl, rfl, ?_⟩⟩
  · simp only [scrape_public_storage, if_neg hne]
    split <;> split <;> simp
  · simp only [scrape_lockaway, if_neg hne]
  · simp only [scrape_honea_egypt, if_neg hne]
  · simp only [scrape_montgomery, if_neg hne]
  · simp only [scrape_woodlands_sao, if_neg hne]

/-- C7 witness: the amended claim at concrete inputs. -/
theorem claim_C7_witness :
    (scrape_public_storage none [] [] [] = none ∧
      scrape_public_storage (some "") [] [] [] = none ∧
      scrape_public_storage (some "x") [] [] [] ≠ none) ∧
    (scrape_lockaway none [] = none ∧ scrape_lockaway (some "") [] = none ∧
      scrape_lockaway (some "x") [] = some (lockawayCore [])) ∧
    (scrape_honea_egypt none [] = none ∧ scrape_honea_egypt (some "") [] = none ∧
      scrape_honea_egypt (some "x") [] = some (honeaCore [])) ∧
    (scrape_montgomery none [] = none ∧ scrape_montgomery (some "") [] = none ∧
      scrape_montgomery (some "x") [] = some (montgomeryCore [])) ∧
    (scrape_woodlands_sao none [] = none ∧ scrape_woodlands_sao (some "") [] = none ∧
      scrape_woodlands_sao (some "x") [] = some (woodlandsCore [])) :=
  claim_C7_amended [] [] [] "x" (by decide)

/-- C8: the spec's worked example — exactly the 5x10 drop and the 10x20
null-to-present transition are reported; the unchanged 10x15 is not. -/
theorem claim_C8_worked_example :
    (runMerge
      [⟨"A", [("5x10", some 59), ("10x10", none), ("10x15", some 89),
              ("10x20", none), ("10x30", none)], [("address", "1 Main St")]⟩]
      [("A", some (some [("5x10", some 55), ("10x10", none), ("10x15", some 89),
                         ("10x20", some 120), ("10x30", none)]))]).2 =
      [⟨"A", "5x10", some 59, some 55⟩, ⟨"A", "10x20", none, some 120⟩] := by
  decide

/-- C9: every scraper-produced table and every table the merge writes back
has exactly the five canonical keys, each absent or non-negative (given
that the loaded store and the scrape results respect the same invariant —
the scraper conjunct discharges the latter). -/
theorem claim_C9_pricing_invariant :
    (∀ blocks : List Block,
      PricingWF (psCore blocks) ∧ PricingWF (lockawayCore blocks) ∧
      PricingWF (honeaCore blocks) ∧ PricingWF (montgomeryCore blocks) ∧
      PricingWF (woodlandsCore blocks)) ∧
    (∀ (prev : List Competitor) (targets : List RunTarget),
      (∀ c ∈ prev, PricingWF c.pricing) →
      (∀ t ∈ targets, ∀ np, t.2 = some (some np) → PricingWF np) →
      ∀ c ∈ (runMerge prev targets).1, PricingWF c.pricing) :=
  ⟨fun blocks => ⟨pricingWF_psCore blocks, pricingWF_lockawayCore blocks,
    pricingWF_honeaCore blocks, pricingWF_montgomeryCore blocks,
    pricingWF_woodlandsCore blocks⟩, pricingWF_runMerge⟩

/-- C9 witness: the invariant evaluated on a concrete pass and a concrete
merged snapshot. -/
theorem claim_C9_witness :
    PricingWF (psCore [(5, 14, 4100)]) ∧
    PricingWF (Competitor.mk "A" emptyPricing []).pricing :=
  ⟨(claim_C9_pricing_invariant.1 [(5, 14, 4100)]).1,
   claim_C9_pricing_invariant.2 [⟨"A", emptyPricing, []⟩]
     [("A", some (some emptyPricing))]
     (by
       intro c hc
       rw [List.mem_singleton] at hc
       rw [hc]
       exact pricingWF_emptyPricing)
     (by
       intro t ht np hnp
       rw [List.mem_singleton] at ht
       rw [ht] at hnp
       cases hnp
       exact pricingWF_emptyPricing)
     ⟨"A", emptyPricing, []⟩ (by decide)⟩

/-- C10: `int(round(...))` is round-half-to-even: an exact .50 fraction
rounds to the nearest even whole amount, so 40.50 is stored as 40 while
41.50 is stored as 42, through every scraper. -/
theorem claim_C10_round_half_even :
    (∀ q : Nat, roundPrice (100 * q + 50) =
      if q % 2 = 0 then (q : Int) else (q : Int) + 1) ∧
    joinGet (psCore [(5, 14, 4050)]) "5x10" = some 40 ∧
    joinGet (psCore [(5, 14, 4150)]) "5x10" = some 42 ∧
    joinGet (lockawayCore [(5, 10, 4050)]) "5x10" = some 40 ∧
    joinGet (lockawayCore [(5, 10, 4150)]) "5x10" = some 42 ∧
    joinGet (honeaCore [(5, 10, 4050)]) "5x10" = some 40 ∧
    joinGet (honeaCore [(5, 10, 4150)]) "5x10" = some 42 ∧
    joinGet (montgomeryCore [(5, 10, 4050)]) "5x10" = some 40 ∧
    joinGet (montgomeryCore [(5, 10, 4150)]) "5x10" = some 42 ∧
    joinGet (woodlandsCore [(5, 10, 4050)]) "5x10" = some 40 ∧
    joinGet (woodlandsCore [(5, 10, 4150)]) "5x10" = some 42 := by
  constructor
  · intro q
    have h1 : (100 * q + 50) % 100 = 50 := by omega
    have h2 : (100 * q + 50) / 100 = q := by omega
    simp only [roundPrice, h1, h2]
    norm_num
  · refine ⟨?_, ?_, ?_, ?_, ?_, ?_, ?_, ?_, ?_, ?_⟩ <;> decide
